import Mathlib

/-!
# Verification of the infinite-sets library

A shallow embedding of the repository's three source files
(`src/infinite_set.rs`, `src/sets.rs`, `src/main.rs`).

The element type of every producer in the repository is `u128`; all the
behaviour examined here happens far below `2^128` (prefixes of length at most
a few dozen), so elements are modelled as `Nat`.  An `InfiniteSet` trait
object is modelled by the stream of values its iterator yields (the `k`-th
call to `next()` on a fresh iterator returns `yield k`, `none` when the Rust
iterator would return `None`) together with its read-only `contains`
predicate.  Rust panics (`.expect(msg)`) are modelled by the `Res.panic msg`
outcome carrying the exact `expect` string from the source; the internal
`loop`s of the combinators take a fuel argument, and running out of fuel
gives the `Res.spin` outcome (the source loop would still be running).
-/

/-- Outcome of one combinator operation: a normal result, a Rust panic with
its diagnostic message, or a loop still spinning when the fuel runs out. -/
inductive Res (α : Type) where
  | ok : α → Res α
  | panic : String → Res α
  | spin : Res α
deriving DecidableEq

/-- A boxed `dyn InfiniteSet<Item = u128>`: the stream of values its iterator
yields, plus its `contains` predicate (which takes `&self` and cannot advance
the cursor). -/
structure SetIter where
  yield : Nat → Option Nat
  contains : Nat → Bool

/-- Runs a stateful iterator `step` (returning the yielded item and the new
state) for `k` steps and returns the `k`-th yielded item. -/
def runIter {σ : Type} (step : σ → Option Nat × σ) : Nat → σ → Option Nat
  | 0, s => (step s).1
  | k + 1, s => runIter step k (step s).2

/-! ## Concrete producers (`src/sets.rs`) -/

/-- `<InfinitePositiveInts as Iterator>::next`: increment `current`, return it. -/
def positiveIntsStep (current : Nat) : Option Nat × Nat :=
  (some (current + 1), current + 1)

/-- `InfinitePositiveInts::contains`: `*x > 0`. -/
def positiveIntsContains (x : Nat) : Bool := decide (0 < x)

/-- `InfinitePositiveInts::new()` boxed as a trait object (`current` defaults to 0). -/
def positiveIntsSet : SetIter :=
  ⟨fun k => runIter positiveIntsStep k 0, positiveIntsContains⟩

/-- `<InfiniteEvens as Iterator>::next`: `current += 2`, return it. -/
def evensStep (current : Nat) : Option Nat × Nat :=
  (some (current + 2), current + 2)

/-- `InfiniteEvens::contains`: `*x > 0 && x % 2 == 0`. -/
def evensContains (x : Nat) : Bool := decide (0 < x) && decide (x % 2 = 0)

/-- `InfiniteEvens::new()` boxed as a trait object (`current` defaults to 0). -/
def evensSet : SetIter :=
  ⟨fun k => runIter evensStep k 0, evensContains⟩

/-- `<InfiniteOdds as Iterator>::next`: save `current`, `current += 2`,
return the saved value. -/
def oddsStep (current : Nat) : Option Nat × Nat :=
  (some current, current + 2)

/-- `InfiniteOdds::contains`: `*x > 0 && x % 2 == 1`. -/
def oddsContains (x : Nat) : Bool := decide (0 < x) && decide (x % 2 = 1)

/-- `InfiniteOdds::new()` boxed as a trait object (`current` starts at 1). -/
def oddsSet : SetIter :=
  ⟨fun k => runIter oddsStep k 1, oddsContains⟩

/-- `<InfiniteTwoPowers as Iterator>::next`: save `current`, `current *= 2`,
return the saved value. -/
def twoPowersStep (current : Nat) : Option Nat × Nat :=
  (some current, current * 2)

/-- Whether `x` is a power of two, via the usual bit trick. -/
def isPow2 (x : Nat) : Bool := x != 0 && (x &&& (x - 1)) == 0

/-- `InfiniteTwoPowers::contains`: the source computes
`let log = (*x as f64).log2();` and returns `*x > 0 && log.fract() != 0.0`.
For every argument examined in this development (naturals below `2^32`, and
powers of two up to `2^127`) the conversion to `f64` is exact and the
computed `log2` has fractional part exactly `0.0` precisely when `x` is a
power of two, so on that range the float test embeds as the negated
power-of-two check.  Note the `!=`: the source's own comment says a zero
fractional part means `x` is a power of two, yet the code returns `true`
exactly when the fractional part is nonzero. -/
def twoPowersContains (x : Nat) : Bool := decide (0 < x) && !(isPow2 x)

/-- `InfiniteTwoPowers::new()` boxed as a trait object (`current` starts at 1). -/
def twoPowersSet : SetIter :=
  ⟨fun k => runIter twoPowersStep k 1, twoPowersContains⟩

/-- Modelled from the spec: `primal::is_prime`, the external number-theory
collaborator ("test whether a given integer is prime"), as a correct
primality test on a 64-bit argument. -/
def primalIsPrime (n : Nat) : Bool := decide (Nat.Prime n)

/-- `InfinitePrimes::contains`: `primal::is_prime(*x as u64)` — the `u128`
argument is truncated (`as u64`), i.e. reduced modulo `2^64`, before the
primality test. -/
def primesContains (x : Nat) : Bool := primalIsPrime (x % 2 ^ 64)

/-! ## Union combinator (`src/infinite_set.rs`, `InfiniteUnion`) -/

/-- `.expect` message of every draw from the first set inside `InfiniteUnion`. -/
def msgUnionFirst : String := "first infinite set in union didn\x27t have a next value"

/-- `.expect` message of every draw from the second set inside `InfiniteUnion`. -/
def msgUnionSecond : String := "second infinite set in union didn\x27t have a next value"

/-- The two operand sets of an `InfiniteUnion` with their cursor positions
(`firstIdx` values already drawn from `first_set`, likewise `secondIdx`) and
the two pending slots `first_next` / `second_next`. -/
structure UnionCore where
  first_set : SetIter
  second_set : SetIter
  firstIdx : Nat
  secondIdx : Nat
  first_next : Nat
  second_next : Nat

/-- The full `InfiniteUnion` state: the core plus the buffered `next_value`
returned by the next call to `next()`. -/
structure InfiniteUnion where
  core : UnionCore
  next_value : Nat

/-- The construction loop of `InfiniteUnion::from_sets` that initialises
`second_next`: repeatedly draw from the second set until the drawn value
differs from `first_next`.  Returns the value and the advanced cursor. -/
def dedupSecond (second : SetIter) (first_next : Nat) : Nat → Nat → Res (Nat × Nat)
  | 0, _ => .spin
  | fuel + 1, j =>
    match second.yield j with
    | none => .panic msgUnionSecond
    | some n =>
      if n ≠ first_next then .ok (n, j + 1)
      else dedupSecond second first_next fuel (j + 1)

/-- The merge loop shared by `InfiniteUnion::from_sets` and
`<InfiniteUnion as Iterator>::next` (`match first_next.cmp(&second_next)`):
emit the lesser pending value and refill it; on a tie refill `first_next`
and loop. -/
def mergeStep : Nat → UnionCore → Res (Nat × UnionCore)
  | 0, _ => .spin
  | fuel + 1, c =>
    if c.first_next < c.second_next then
      match c.first_set.yield c.firstIdx with
      | none => .panic msgUnionFirst
      | some v => .ok (c.first_next, { c with first_next := v, firstIdx := c.firstIdx + 1 })
    else if c.first_next = c.second_next then
      match c.first_set.yield c.firstIdx with
      | none => .panic msgUnionFirst
      | some v => mergeStep fuel { c with first_next := v, firstIdx := c.firstIdx + 1 }
    else
      match c.second_set.yield c.secondIdx with
      | none => .panic msgUnionSecond
      | some v => .ok (c.second_next, { c with second_next := v, secondIdx := c.secondIdx + 1 })

/-- `InfiniteUnion::from_sets`: draw `first_next` from the first set, draw
`second_next` from the second set skipping duplicates of `first_next`, then
run the merge loop once to precompute `next_value`. -/
def fromSets (fuel : Nat) (first second : SetIter) : Res InfiniteUnion :=
  match first.yield 0 with
  | none => .panic msgUnionFirst
  | some fn =>
    match dedupSecond second fn fuel 0 with
    | .panic m => .panic m
    | .spin => .spin
    | .ok (sn, j) =>
      match mergeStep fuel ⟨first, second, 1, j, fn, sn⟩ with
      | .panic m => .panic m
      | .spin => .spin
      | .ok (nv, c) => .ok ⟨c, nv⟩

/-- `<InfiniteUnion as Iterator>::next`: return the buffered `next_value` and
re-run the merge loop to precompute the following one. -/
def unionNext (fuel : Nat) (u : InfiniteUnion) : Res (Nat × InfiniteUnion) :=
  match mergeStep fuel u.core with
  | .panic m => .panic m
  | .spin => .spin
  | .ok (nv, c) => .ok (u.next_value, ⟨c, nv⟩)

/-- `InfiniteUnion::contains`: `first_set.contains(x) || second_set.contains(x)`. -/
def unionContains (u : InfiniteUnion) (x : Nat) : Bool :=
  u.core.first_set.contains x || u.core.second_set.contains x

/-- `n` successive calls to `next()` on a union, collecting the emitted values
(the effect of `.take(n).collect()`). -/
def unionTake (fuel : Nat) : Nat → InfiniteUnion → Res (List Nat × InfiniteUnion)
  | 0, u => .ok ([], u)
  | n + 1, u =>
    match unionNext fuel u with
    | .panic m => .panic m
    | .spin => .spin
    | .ok (x, u₁) =>
      match unionTake fuel n u₁ with
      | .panic m => .panic m
      | .spin => .spin
      | .ok (xs, u₂) => .ok (x :: xs, u₂)

/-- Construct `union(A, B)` and collect its first `n` emitted values
(`A.union(B).take(n).collect()`); `none` when a panic or an unfinished loop
intervenes. -/
def unionRun (fuel n : Nat) (first second : SetIter) : Option (List Nat) :=
  match fromSets fuel first second with
  | .panic _ => none
  | .spin => none
  | .ok u =>
    match unionTake fuel n u with
    | .panic _ => none
    | .spin => none
    | .ok (l, _) => some l

/-! ## Intersection combinator (`src/infinite_set.rs`, `InfiniteIntersection`) -/

/-- `.expect` message of every draw from the first set inside
`InfiniteIntersection` (the second set is never drawn from). -/
def msgIntersectionFirst : String :=
  "first infinite set in intersection didn\x27t have a next value"

/-- The `InfiniteIntersection` state: the two operand sets and their cursor
positions (number of values drawn from each so far). -/
structure InfiniteIntersection where
  first : SetIter
  second : SetIter
  firstIdx : Nat
  secondIdx : Nat

/-- `<InfiniteIntersection as Iterator>::next`: repeatedly draw `x` from the
first set until `second.contains(&x)` holds, then emit `x`. -/
def intersectionNext : Nat → InfiniteIntersection → Res (Nat × InfiniteIntersection)
  | 0, _ => .spin
  | fuel + 1, s =>
    match s.first.yield s.firstIdx with
    | none => .panic msgIntersectionFirst
    | some x =>
      if s.second.contains x then .ok (x, { s with firstIdx := s.firstIdx + 1 })
      else intersectionNext fuel { s with firstIdx := s.firstIdx + 1 }

/-- `InfiniteIntersection::contains`: `first.contains(x) && second.contains(x)`. -/
def intersectionContains (s : InfiniteIntersection) (x : Nat) : Bool :=
  s.first.contains x && s.second.contains x

/-- `n` successive calls to `next()` on an intersection, collecting the
emitted values. -/
def intersectionTake (fuel : Nat) :
    Nat → InfiniteIntersection → Res (List Nat × InfiniteIntersection)
  | 0, s => .ok ([], s)
  | n + 1, s =>
    match intersectionNext fuel s with
    | .panic m => .panic m
    | .spin => .spin
    | .ok (x, s₁) =>
      match intersectionTake fuel n s₁ with
      | .panic m => .panic m
      | .spin => .spin
      | .ok (xs, s₂) => .ok (x :: xs, s₂)

/-- Projection of `intersectionNext` onto the emitted value. -/
def intersectionNextValue (fuel : Nat) (s : InfiniteIntersection) : Option Nat :=
  match intersectionNext fuel s with
  | .ok (x, _) => some x
  | _ => none

/-! ## Predicates used by the verification -/

/-- `x` is one of the values the iterator of `A` yields. -/
def Yielded (A : SetIter) (x : Nat) : Prop := ∃ k, A.yield k = some x

/-- The producer invariant stated by the spec: every value the iterator
yields satisfies the producer's own `contains`. -/
def EnumConsistent (A : SetIter) : Prop :=
  ∀ k x, A.yield k = some x → A.contains x = true

/-- A union state whose operand sets are `A` and `B` and whose buffered
values were all drawn from the operands' iterators. -/
def UnionSrc (A B : SetIter) (u : InfiniteUnion) : Prop :=
  u.core.first_set = A ∧ u.core.second_set = B ∧
    (Yielded A u.next_value ∨ Yielded B u.next_value) ∧
    Yielded A u.core.first_next ∧ Yielded B u.core.second_next

/-- A malconstructed operand whose iterator is immediately exhausted,
violating the combinators' infinitude precondition. -/
def noneSet : SetIter := ⟨fun _ => none, fun _ => false⟩

/-- The running invariant of a union of two strictly increasing operands:
the operands enumerate the strictly monotone streams `f` and `g`, each
pending slot holds the most recently drawn value, and the buffered
`next_value` is below both pending values. -/
def UnionInv (f g : Nat → Nat) (u : InfiniteUnion) : Prop :=
  (∀ k, u.core.first_set.yield k = some (f k)) ∧
    (∀ k, u.core.second_set.yield k = some (g k)) ∧
    StrictMono f ∧ StrictMono g ∧
    1 ≤ u.core.firstIdx ∧ 1 ≤ u.core.secondIdx ∧
    u.core.first_next = f (u.core.firstIdx - 1) ∧
    u.core.second_next = g (u.core.secondIdx - 1) ∧
    u.next_value < u.core.first_next ∧ u.next_value < u.core.second_next

/-- `v` is the union built from the same operands as `u` but in swapped
order, with the swap reflected in every buffered field. -/
def Mirror (u v : InfiniteUnion) : Prop :=
  v.core.first_set = u.core.second_set ∧ v.core.second_set = u.core.first_set ∧
    v.core.firstIdx = u.core.secondIdx ∧ v.core.secondIdx = u.core.firstIdx ∧
    v.core.first_next = u.core.second_next ∧
    v.core.second_next = u.core.first_next ∧
    v.next_value = u.next_value

/-! ## Closed forms for the producers' yield streams -/

theorem positiveInts_yield (k : Nat) : positiveIntsSet.yield k = some (k + 1) := by
  show runIter positiveIntsStep k 0 = some (k + 1)
  have h : ∀ k c, runIter positiveIntsStep k c = some (c + k + 1) := by
    intro k
    induction k with
    | zero => intro c; rfl
    | succ n ih =>
      intro c
      show runIter positiveIntsStep n (c + 1) = _
      rw [ih]
      congr 1
      omega
  simpa using h k 0

theorem evens_yield (k : Nat) : evensSet.yield k = some (2 * (k + 1)) := by
  show runIter evensStep k 0 = some (2 * (k + 1))
  have h : ∀ k c, runIter evensStep k c = some (c + 2 * (k + 1)) := by
    intro k
    induction k with
    | zero => intro c; rfl
    | succ n ih =>
      intro c
      show runIter evensStep n (c + 2) = _
      rw [ih]
      congr 1
      omega
  simpa using h k 0

theorem odds_yield (k : Nat) : oddsSet.yield k = some (2 * k + 1) := by
  show runIter oddsStep k 1 = some (2 * k + 1)
  have h : ∀ k c, runIter oddsStep k c = some (c + 2 * k) := by
    intro k
    induction k with
    | zero => intro c; simp [runIter, oddsStep]
    | succ n ih =>
      intro c
      show runIter oddsStep n (c + 2) = _
      rw [ih]
      congr 1
      omega
  rw [h]
  congr 1
  omega

theorem twoPowers_yield (k : Nat) : twoPowersSet.yield k = some (2 ^ k) := by
  show runIter twoPowersStep k 1 = some (2 ^ k)
  have h : ∀ k c, runIter twoPowersStep k c = some (c * 2 ^ k) := by
    intro k
    induction k with
    | zero => intro c; simp [runIter, twoPowersStep]
    | succ n ih =>
      intro c
      show runIter twoPowersStep n (c * 2) = _
      rw [ih]
      congr 1
      ring
  rw [h]
  congr 1
  omega

theorem positiveInts_enumConsistent : EnumConsistent positiveIntsSet := by
  intro k x h
  rw [positiveInts_yield] at h
  injection h with h
  subst h
  simp [positiveIntsSet, positiveIntsContains]

theorem evens_enumConsistent : EnumConsistent evensSet := by
  intro k x h
  rw [evens_yield] at h
  injection h with h
  subst h
  simp [evensSet, evensContains, Nat.mul_mod_right]

theorem odds_enumConsistent : EnumConsistent oddsSet := by
  intro k x h
  rw [odds_yield] at h
  injection h with h
  subst h
  simp [oddsSet, oddsContains, Nat.mul_add_mod]

/-! ## Emitted union values come from the operands' iterators -/

theorem mergeStep_sets (fuel : Nat) :
    ∀ c v c', mergeStep fuel c = .ok (v, c') →
      c'.first_set = c.first_set ∧ c'.second_set = c.second_set := by
  induction fuel with
  | zero => intro c v c' h; simp [mergeStep] at h
  | succ n ih =>
    intro c v c' h
    rw [mergeStep] at h
    split at h
    · split at h
      · simp at h
      · simp only [Res.ok.injEq, Prod.mk.injEq] at h
        obtain ⟨-, hc⟩ := h
        subst hc
        exact ⟨rfl, rfl⟩
    · split at h
      · split at h
        · simp at h
        · have := ih _ _ _ h
          simpa using this
      · split at h
        · simp at h
        · simp only [Res.ok.injEq, Prod.mk.injEq] at h
          obtain ⟨-, hc⟩ := h
          subst hc
          exact ⟨rfl, rfl⟩

theorem mergeStep_yielded (fuel : Nat) :
    ∀ c v c', mergeStep fuel c = .ok (v, c') →
      Yielded c.first_set c.first_next → Yielded c.second_set c.second_next →
      (Yielded c.first_set v ∨ Yielded c.second_set v) ∧
        Yielded c.first_set c'.first_next ∧ Yielded c.second_set c'.second_next := by
  induction fuel with
  | zero => intro c v c' h; simp [mergeStep] at h
  | succ n ih =>
    intro c v c' h h1 h2
    rw [mergeStep] at h
    split at h
    · split at h
      · simp at h
      · rename_i v' hv'
        simp only [Res.ok.injEq, Prod.mk.injEq] at h
        obtain ⟨hv, hc⟩ := h
        subst hv
        subst hc
        exact ⟨Or.inl h1, ⟨_, hv'⟩, h2⟩
    · split at h
      · split at h
        · simp at h
        · rename_i v' hv'
          have := ih _ _ _ h ⟨_, hv'⟩ h2
          simpa using this
      · split at h
        · simp at h
        · rename_i v' hv'
          simp only [Res.ok.injEq, Prod.mk.injEq] at h
          obtain ⟨hv, hc⟩ := h
          subst hv
          subst hc
          exact ⟨Or.inr h2, h1, ⟨_, hv'⟩⟩

theorem unionNext_src (fuel : Nat) (A B : SetIter) (u : InfiniteUnion)
    (x : Nat) (u' : InfiniteUnion) (hu : UnionSrc A B u)
    (h : unionNext fuel u = .ok (x, u')) :
    (Yielded A x ∨ Yielded B x) ∧ UnionSrc A B u' := by
  obtain ⟨hA, hB, hnv, h1, h2⟩ := hu
  subst hA
  subst hB
  rw [unionNext] at h
  split at h
  · simp at h
  · simp at h
  · rename_i nv c hm
    simp only [Res.ok.injEq, Prod.mk.injEq] at h
    obtain ⟨hx, hu'⟩ := h
    subst hx
    subst hu'
    obtain ⟨hs1, hs2⟩ := mergeStep_sets fuel _ _ _ hm
    have hy := mergeStep_yielded fuel _ _ _ hm h1 h2
    exact ⟨hnv, hs1, hs2, hy.1, hy.2.1, hy.2.2⟩

theorem unionTake_src (fuel : Nat) (A B : SetIter) :
    ∀ n u l u', UnionSrc A B u → unionTake fuel n u = .ok (l, u') →
      ∀ x ∈ l, Yielded A x ∨ Yielded B x := by
  intro n
  induction n with
  | zero =>
    intro u l u' _ h x hx
    simp only [unionTake, Res.ok.injEq, Prod.mk.injEq] at h
    obtain ⟨hl, -⟩ := h
    subst hl
    simp at hx
  | succ m ih =>
    intro u l u' hu h x hx
    rw [unionTake] at h
    split at h
    · simp at h
    · simp at h
    · rename_i y u₁ hn
      split at h
      · simp at h
      · simp at h
      · rename_i ys u₂ ht
        simp only [Res.ok.injEq, Prod.mk.injEq] at h
        obtain ⟨hl, -⟩ := h
        subst hl
        obtain ⟨hy, hu₁⟩ := unionNext_src fuel A B u y u₁ hu hn
        rcases List.mem_cons.mp hx with hx | hx
        · subst hx; exact hy
        · exact ih u₁ ys u₂ hu₁ ht x hx

theorem dedupSecond_yielded (B : SetIter) (fn : Nat) :
    ∀ fuel j sn j', dedupSecond B fn fuel j = .ok (sn, j') → Yielded B sn := by
  intro fuel
  induction fuel with
  | zero => intro j sn j' h; simp [dedupSecond] at h
  | succ n ih =>
    intro j sn j' h
    rw [dedupSecond] at h
    split at h
    · simp at h
    · rename_i v hv
      split at h
      · simp only [Res.ok.injEq, Prod.mk.injEq] at h
        obtain ⟨hv', -⟩ := h
        subst hv'
        exact ⟨_, hv⟩
      · exact ih _ _ _ h

theorem fromSets_src (fuel : Nat) (A B : SetIter) (u : InfiniteUnion)
    (h : fromSets fuel A B = .ok u) : UnionSrc A B u := by
  rw [fromSets] at h
  split at h
  · simp at h
  · rename_i fn hfn
    split at h
    · simp at h
    · simp at h
    · rename_i sn j hd
      split at h
      · simp at h
      · simp at h
      · rename_i nv c hm
        simp only [Res.ok.injEq] at h
        subst h
        obtain ⟨hs1, hs2⟩ := mergeStep_sets fuel _ _ _ hm
        have hsn : Yielded B sn := dedupSecond_yielded B fn fuel 0 sn j hd
        have hy' := mergeStep_yielded fuel _ _ _ hm ⟨0, hfn⟩ hsn
        exact ⟨by simpa using hs1, by simpa using hs2, hy'.1, hy'.2.1, hy'.2.2⟩

/-! ## Intersection emission facts -/

theorem intersectionNext_src (fuel : Nat) :
    ∀ s x s', intersectionNext fuel s = .ok (x, s') →
      s'.first = s.first ∧ s'.second = s.second ∧ s'.secondIdx = s.secondIdx ∧
        s.firstIdx < s'.firstIdx ∧ s.second.contains x = true ∧
        ∃ k, s.firstIdx ≤ k ∧ k < s'.firstIdx ∧ s.first.yield k = some x := by
  induction fuel with
  | zero => intro s x s' h; simp [intersectionNext] at h
  | succ n ih =>
    intro s x s' h
    rw [intersectionNext] at h
    split at h
    · simp at h
    · rename_i v hv
      split at h
      · rename_i hc
        simp only [Res.ok.injEq, Prod.mk.injEq] at h
        obtain ⟨hx, hs⟩ := h
        subst hx
        subst hs
        exact ⟨rfl, rfl, rfl, by simp, hc, s.firstIdx, le_rfl, by simp, hv⟩
      · have t := ih _ _ _ h
        obtain ⟨t1, t2, t3, t4, t5, k, hk1, hk2, hk3⟩ := t
        refine ⟨t1, t2, t3, by simp at t4; omega, t5, k, ?_, ?_, hk3⟩
        · simp at hk1; omega
        · exact hk2

theorem intersectionTake_src (fuel : Nat) :
    ∀ n s l s', intersectionTake fuel n s = .ok (l, s') →
      s'.first = s.first ∧ s'.second = s.second ∧ s'.secondIdx = s.secondIdx ∧
        s.firstIdx ≤ s'.firstIdx ∧
        ∀ x ∈ l, s.second.contains x = true ∧
          ∃ k, s.firstIdx ≤ k ∧ k < s'.firstIdx ∧ s.first.yield k = some x := by
  intro n
  induction n with
  | zero =>
    intro s l s' h
    simp only [intersectionTake, Res.ok.injEq, Prod.mk.injEq] at h
    obtain ⟨hl, hs⟩ := h
    subst hl
    subst hs
    exact ⟨rfl, rfl, rfl, le_rfl, by simp⟩
  | succ m ih =>
    intro s l s' h
    rw [intersectionTake] at h
    split at h
    · simp at h
    · simp at h
    · rename_i y s₁ hn
      split at h
      · simp at h
      · simp at h
      · rename_i ys s₂ ht
        simp only [Res.ok.injEq, Prod.mk.injEq] at h
        obtain ⟨hl, hs⟩ := h
        subst hl
        subst hs
        obtain ⟨n1, n2, n3, n4, n5, k, hk1, hk2, hk3⟩ := intersectionNext_src fuel s y s₁ hn
        obtain ⟨t1, t2, t3, t4, tall⟩ := ih s₁ ys s₂ ht
        refine ⟨by rw [t1, n1], by rw [t2, n2], by rw [t3, n3], by omega, ?_⟩
        intro x hx
        rcases List.mem_cons.mp hx with hx | hx
        · subst hx
          exact ⟨n5, k, hk1, by omega, hk3⟩
        · obtain ⟨hc, k', hk1', hk2', hk3'⟩ := tall x hx
          rw [n2] at hc
          rw [n1] at hk3'
          exact ⟨hc, k', by omega, by omega, hk3'⟩

theorem intersection_spin_aux (fuel : Nat) :
    ∀ s : InfiniteIntersection,
      (∀ k, s.firstIdx ≤ k →
        ∃ x, s.first.yield k = some x ∧ s.second.contains x = false) →
      intersectionNext fuel s = .spin := by
  induction fuel with
  | zero => intro s _; rfl
  | succ n ih =>
    intro s h
    obtain ⟨x, hx, hcx⟩ := h s.firstIdx le_rfl
    rw [intersectionNext]
    simp only [hx, hcx, Bool.false_eq_true, if_false]
    exact ih _ (fun k hk => h k (by simp at hk; omega))

/-! ## Claims -/

/-- C1: the claim says every value yielded by a producer's iterator satisfies
that producer's `contains`; `InfiniteTwoPowers` violates it — its iterator
yields 1 and 2 while its `contains` (whose `log.fract() != 0.0` test inverts
the power-of-two check its own comment describes) rejects both. -/
theorem c1_twoPowers_enumeration_contradicts_contains :
    twoPowersSet.yield 0 = some 1 ∧ twoPowersSet.yield 1 = some 2 ∧
      twoPowersSet.contains 1 = false ∧ twoPowersSet.contains 2 = false :=
  ⟨rfl, rfl, rfl, rfl⟩

/-- C2 counterexample: the union of powers-of-two and odds emits 2 as its
second value, yet neither operand's `contains` accepts 2, so
`A.contains(x) || B.contains(x)` fails on an emitted value. -/
theorem c2_counterexample :
    unionRun 2 2 twoPowersSet oddsSet = some [1, 2] ∧
      (twoPowersSet.contains 2 || oddsSet.contains 2) = false :=
  ⟨rfl, rfl⟩

/-- C2 (amended): every value emitted by a union built from two operands
whose `contains` accepts everything their iterators yield satisfies
`A.contains(x) || B.contains(x)`. -/
theorem c2_union_members_contained_of_consistent (A B : SetIter)
    (hA : EnumConsistent A) (hB : EnumConsistent B) (fuelC fuelT n : Nat)
    (u u' : InfiniteUnion) (l : List Nat)
    (hc : fromSets fuelC A B = .ok u) (ht : unionTake fuelT n u = .ok (l, u')) :
    ∀ x ∈ l, (A.contains x || B.contains x) = true := by
  intro x hx
  rcases unionTake_src fuelT A B n u l u' (fromSets_src fuelC A B u hc) ht x hx with
    ⟨k, hk⟩ | ⟨k, hk⟩
  · simp [hA k x hk]
  · simp [hB k x hk]

/-- C2 witness: the amended theorem applied to the union of evens and odds,
whose first emitted value is 1. -/
theorem c2_witness : (evensSet.contains 1 || oddsSet.contains 1) = true :=
  c2_union_members_contained_of_consistent evensSet oddsSet
    evens_enumConsistent odds_enumConsistent 2 2 1
    ⟨⟨evensSet, oddsSet, 1, 2, 2, 3⟩, 1⟩ ⟨⟨evensSet, oddsSet, 2, 2, 4, 3⟩, 2⟩
    [1] rfl rfl 1 (by simp)

/-- C3 counterexample: intersecting powers-of-two with the positive ints
emits 1 (drawn from the first operand, tested only against the second), yet
the first operand's `contains` rejects 1, so `A.contains(x)` fails on an
emitted value. -/
theorem c3_counterexample :
    intersectionNextValue 1 ⟨twoPowersSet, positiveIntsSet, 0, 0⟩ = some 1 ∧
      twoPowersSet.contains 1 = false :=
  ⟨rfl, rfl⟩

/-- C3 (amended): every value emitted by the intersection satisfies the
second operand's `contains` (which is tested directly), and also the first
operand's `contains` provided the first operand's `contains` accepts
everything its iterator yields. -/
theorem c3_intersection_members_contained (fuel n : Nat)
    (s s' : InfiniteIntersection) (l : List Nat)
    (h : intersectionTake fuel n s = .ok (l, s')) :
    ∀ x ∈ l, s.second.contains x = true ∧
      (EnumConsistent s.first → s.first.contains x = true) := by
  intro x hx
  obtain ⟨-, -, -, -, hall⟩ := intersectionTake_src fuel n s l s' h
  obtain ⟨hc2, k, -, -, hk⟩ := hall x hx
  exact ⟨hc2, fun hcons => hcons k x hk⟩

/-- C3 witness: the amended theorem applied to the intersection of the
positive ints with the odds, whose first emitted value is 1. -/
theorem c3_witness : oddsSet.contains 1 = true ∧ positiveIntsSet.contains 1 = true := by
  have h := c3_intersection_members_contained 1 1
    ⟨positiveIntsSet, oddsSet, 0, 0⟩ ⟨positiveIntsSet, oddsSet, 1, 0⟩ [1] rfl 1 (by simp)
  exact ⟨h.1, h.2 positiveInts_enumConsistent⟩

/-- C4: if past the current cursor no value drawn from the intersection's
first sequence satisfies the second sequence's `contains`, then `next()`
never returns: for every loop fuel the draw-and-test loop is still
spinning, with no `None` and no error produced. -/
theorem c4_intersection_never_returns (s : InfiniteIntersection)
    (h : ∀ k, s.firstIdx ≤ k →
      ∃ x, s.first.yield k = some x ∧ s.second.contains x = false) :
    ∀ fuel, intersectionNext fuel s = .spin :=
  fun fuel => intersection_spin_aux fuel s h

/-- C4 witness: evens intersected with odds spins (shown at fuel 5). -/
theorem c4_witness : intersectionNext 5 ⟨evensSet, oddsSet, 0, 0⟩ = .spin :=
  c4_intersection_never_returns ⟨evensSet, oddsSet, 0, 0⟩
    (fun k _ => ⟨2 * (k + 1), evens_yield k,
      by simp [oddsSet, oddsContains, Nat.mul_mod_right]⟩) 5

/-- C5: taking the first 10 values from the union of powers-of-two and odds
yields exactly `[1, 2, 3, 4, 5, 7, 8, 9, 11, 13]`, and the value 1 (present
in both operands) occurs exactly once in that output. -/
theorem c5_union_twoPowers_odds_take_ten :
    unionRun 2 10 twoPowersSet oddsSet = some [1, 2, 3, 4, 5, 7, 8, 9, 11, 13] ∧
      ((unionRun 2 10 twoPowersSet oddsSet).getD []).count 1 = 1 :=
  ⟨rfl, rfl⟩

/-- C8: whenever an underlying sequence fails to produce a next value —
during union construction (either draw), a union advance (either branch of
the merge), or an intersection advance — the combinator panics with the
diagnostic naming the failing operand and combinator, rather than returning
a value. -/
theorem c8_exhaustion_panics (A B : SetIter) (fuel : Nat) (u : InfiniteUnion)
    (s : InfiniteIntersection) :
    (A.yield 0 = none → fromSets fuel A B = .panic msgUnionFirst) ∧
      (∀ fn, A.yield 0 = some fn → B.yield 0 = none →
        fromSets (fuel + 1) A B = .panic msgUnionSecond) ∧
      (u.core.first_next ≤ u.core.second_next →
        u.core.first_set.yield u.core.firstIdx = none →
        unionNext (fuel + 1) u = .panic msgUnionFirst) ∧
      (u.core.second_next < u.core.first_next →
        u.core.second_set.yield u.core.secondIdx = none →
        unionNext (fuel + 1) u = .panic msgUnionSecond) ∧
      (s.first.yield s.firstIdx = none →
        intersectionNext (fuel + 1) s = .panic msgIntersectionFirst) := by
  refine ⟨?_, ?_, ?_, ?_, ?_⟩
  · intro h
    rw [fromSets, h]
  · intro fn h1 h2
    simp only [fromSets, h1, dedupSecond, h2]
  · intro hle h
    rw [unionNext, mergeStep]
    rcases eq_or_lt_of_le hle with heq | hlt
    · rw [if_neg (by omega), if_pos heq, h]
    · rw [if_pos hlt, h]
  · intro hgt h
    rw [unionNext, mergeStep, if_neg (by omega), if_neg (by omega), h]
  · intro h
    rw [intersectionNext, h]

/-- C8 witness: each of the five exhaustion scenarios instantiated with a
concrete exhausted operand. -/
theorem c8_witness :
    fromSets 3 noneSet oddsSet = .panic msgUnionFirst ∧
      fromSets 3 oddsSet noneSet = .panic msgUnionSecond ∧
      unionNext 3 ⟨⟨noneSet, oddsSet, 0, 0, 1, 2⟩, 0⟩ = .panic msgUnionFirst ∧
      unionNext 3 ⟨⟨oddsSet, noneSet, 0, 0, 2, 1⟩, 0⟩ = .panic msgUnionSecond ∧
      intersectionNext 3 ⟨noneSet, oddsSet, 0, 0⟩ = .panic msgIntersectionFirst := by
  refine ⟨?_, ?_, ?_, ?_, ?_⟩
  · exact (c8_exhaustion_panics noneSet oddsSet 3
      ⟨⟨noneSet, oddsSet, 0, 0, 1, 2⟩, 0⟩ ⟨noneSet, oddsSet, 0, 0⟩).1 rfl
  · exact (c8_exhaustion_panics oddsSet noneSet 2
      ⟨⟨noneSet, oddsSet, 0, 0, 1, 2⟩, 0⟩ ⟨noneSet, oddsSet, 0, 0⟩).2.1 1 rfl rfl
  · exact (c8_exhaustion_panics noneSet oddsSet 2
      ⟨⟨noneSet, oddsSet, 0, 0, 1, 2⟩, 0⟩ ⟨noneSet, oddsSet, 0, 0⟩).2.2.1 (by decide) rfl
  · exact (c8_exhaustion_panics noneSet oddsSet 2
      ⟨⟨oddsSet, noneSet, 0, 0, 2, 1⟩, 0⟩ ⟨noneSet, oddsSet, 0, 0⟩).2.2.2.1 (by decide) rfl
  · exact (c8_exhaustion_panics noneSet oddsSet 2
      ⟨⟨noneSet, oddsSet, 0, 0, 1, 2⟩, 0⟩ ⟨noneSet, oddsSet, 0, 0⟩).2.2.2.2 rfl

/-- C9: `InfinitePrimes::contains` applies the primality test to the
argument truncated to 64 bits, so its answer on `2^64 + 2` is the answer
for 2 — `true` — although `2^64 + 2` itself is not prime. -/
theorem c9_primes_contains_truncates_to_u64 :
    (∀ x : Nat, primesContains x = primalIsPrime (x % 2 ^ 64)) ∧
      primesContains (2 ^ 64 + 2) = true ∧ ¬ Nat.Prime (2 ^ 64 + 2) := by
  refine ⟨fun x => rfl, ?_, ?_⟩
  · show primalIsPrime ((2 ^ 64 + 2) % 2 ^ 64) = true
    have h : (2 ^ 64 + 2) % 2 ^ 64 = 2 := by norm_num
    rw [h]
    exact decide_eq_true Nat.prime_two
  · intro hp
    rcases Nat.Prime.eq_one_or_self_of_dvd hp 2 ⟨2 ^ 63 + 1, by norm_num⟩ with h | h
    · norm_num at h
    · norm_num at h

/-- C10: across any number of intersection advances, the second operand's
cursor and the second operand itself are unchanged (it is only consulted
through `contains`), and every emitted value was drawn from the first
operand's iterator. -/
theorem c10_intersection_second_cursor_untouched (fuel n : Nat)
    (s s' : InfiniteIntersection) (l : List Nat)
    (h : intersectionTake fuel n s = .ok (l, s')) :
    s'.second = s.second ∧ s'.secondIdx = s.secondIdx ∧ s'.first = s.first ∧
      ∀ x ∈ l, ∃ k, s.firstIdx ≤ k ∧ k < s'.firstIdx ∧ s.first.yield k = some x := by
  obtain ⟨h1, h2, h3, -, hall⟩ := intersectionTake_src fuel n s l s' h
  exact ⟨h2, h3, h1, fun x hx => (hall x hx).2⟩

/-- C10 witness: two advances of odds ∩ odds leave the second cursor at its
initial position 7. -/
theorem c10_witness :
    intersectionTake 1 2 ⟨oddsSet, oddsSet, 0, 7⟩
        = .ok ([1, 3], ⟨oddsSet, oddsSet, 2, 7⟩) ∧
      (⟨oddsSet, oddsSet, 2, 7⟩ : InfiniteIntersection).secondIdx = 7 :=
  ⟨rfl, (c10_intersection_second_cursor_untouched 1 2 ⟨oddsSet, oddsSet, 0, 7⟩
    ⟨oddsSet, oddsSet, 2, 7⟩ [1, 3] rfl).2.1⟩

/-! ## The merge step on strictly increasing operands -/

theorem mergeStep_cases (f g : Nat → Nat) (c : UnionCore)
    (hA : ∀ k, c.first_set.yield k = some (f k))
    (hB : ∀ k, c.second_set.yield k = some (g k))
    (hf : StrictMono f) (hg : StrictMono g)
    (hi : 1 ≤ c.firstIdx) (hj : 1 ≤ c.secondIdx)
    (hfn : c.first_next = f (c.firstIdx - 1))
    (hsn : c.second_next = g (c.secondIdx - 1)) :
    (c.first_next < c.second_next ∧
        mergeStep 2 c = .ok (c.first_next,
          { c with first_next := f c.firstIdx, firstIdx := c.firstIdx + 1 })) ∨
      (c.first_next = c.second_next ∧
        mergeStep 2 c = .ok (c.second_next,
          { c with first_next := f c.firstIdx, firstIdx := c.firstIdx + 1,
                   second_next := g c.secondIdx, secondIdx := c.secondIdx + 1 })) ∨
      (c.second_next < c.first_next ∧
        mergeStep 2 c = .ok (c.second_next,
          { c with second_next := g c.secondIdx, secondIdx := c.secondIdx + 1 })) := by
  rcases Nat.lt_trichotomy c.first_next c.second_next with hlt | heq | hgt
  · left
    refine ⟨hlt, ?_⟩
    rw [mergeStep, if_pos hlt, hA c.firstIdx]
  · right; left
    refine ⟨heq, ?_⟩
    have hfi : f (c.firstIdx - 1) < f c.firstIdx := hf (by omega)
    have hlt2 : c.second_next < f c.firstIdx := by
      rw [← heq, hfn]
      exact hfi
    rw [mergeStep, if_neg (by omega), if_pos heq, hA c.firstIdx]
    dsimp only
    rw [mergeStep, if_neg (by dsimp only; omega), if_neg (by dsimp only; omega),
      hB c.secondIdx]
  · right; right
    refine ⟨hgt, ?_⟩
    rw [mergeStep, if_neg (by omega), if_neg (by omega), hB c.secondIdx]

theorem unionNext_inv (f g : Nat → Nat) (u : InfiniteUnion) (h : UnionInv f g u) :
    ∃ u', unionNext 2 u = .ok (u.next_value, u') ∧ UnionInv f g u' ∧
      u.next_value < u'.next_value := by
  obtain ⟨hA, hB, hf, hg, hi, hj, hfn, hsn, hv1, hv2⟩ := h
  rcases mergeStep_cases f g u.core hA hB hf hg hi hj hfn hsn with
    ⟨hlt, hm⟩ | ⟨heq, hm⟩ | ⟨hgt, hm⟩
  · refine ⟨⟨⟨u.core.first_set, u.core.second_set, u.core.firstIdx + 1,
      u.core.secondIdx, f u.core.firstIdx, u.core.second_next⟩,
      u.core.first_next⟩, ?_, ?_, hv1⟩
    · rw [unionNext, hm]
    · refine ⟨hA, hB, hf, hg, by dsimp only; omega, hj, ?_, hsn, ?_, hlt⟩
      · dsimp only
        rw [Nat.add_sub_cancel]
      · dsimp only
        rw [hfn]
        exact hf (by omega)
  · refine ⟨⟨⟨u.core.first_set, u.core.second_set, u.core.firstIdx + 1,
      u.core.secondIdx + 1, f u.core.firstIdx, g u.core.secondIdx⟩,
      u.core.second_next⟩, ?_, ?_, hv2⟩
    · rw [unionNext, hm]
    · refine ⟨hA, hB, hf, hg, by dsimp only; omega, by dsimp only; omega,
        ?_, ?_, ?_, ?_⟩
      · dsimp only
        rw [Nat.add_sub_cancel]
      · dsimp only
        rw [Nat.add_sub_cancel]
      · dsimp only
        rw [← heq, hfn]
        exact hf (by omega)
      · dsimp only
        rw [hsn]
        exact hg (by omega)
  · refine ⟨⟨⟨u.core.first_set, u.core.second_set, u.core.firstIdx,
      u.core.secondIdx + 1, u.core.first_next, g u.core.secondIdx⟩,
      u.core.second_next⟩, ?_, ?_, hv2⟩
    · rw [unionNext, hm]
    · refine ⟨hA, hB, hf, hg, hi, by dsimp only; omega, hfn, ?_, hgt, ?_⟩
      · dsimp only
        rw [Nat.add_sub_cancel]
      · dsimp only
        rw [hsn]
        exact hg (by omega)

theorem unionTake_inv (f g : Nat → Nat) :
    ∀ n u, UnionInv f g u →
      ∃ l u', unionTake 2 n u = .ok (l, u') ∧ UnionInv f g u' ∧
        List.Chain' (· < ·) l ∧ ∀ y ∈ l, u.next_value ≤ y := by
  intro n
  induction n with
  | zero => intro u h; exact ⟨[], u, rfl, h, by simp, by simp⟩
  | succ m ih =>
    intro u h
    obtain ⟨u₁, hn, h₁, hlt⟩ := unionNext_inv f g u h
    obtain ⟨l₁, u₂, ht, h₂, hch, hub⟩ := ih u₁ h₁
    refine ⟨u.next_value :: l₁, u₂, ?_, h₂, ?_, ?_⟩
    · rw [unionTake, hn]
      dsimp only
      rw [ht]
    · rw [List.chain'_cons']
      refine ⟨?_, hch⟩
      intro y hy
      have := hub y (List.mem_of_mem_head? hy)
      omega
    · intro y hy
      rcases List.mem_cons.mp hy with rfl | hy
      · exact le_rfl
      · have := hub y hy
        omega

theorem dedupSecond_stream (B : SetIter) (g : Nat → Nat)
    (hB : ∀ k, B.yield k = some (g k)) (hg : StrictMono g) (x : Nat) :
    (g 0 ≠ x ∧ dedupSecond B x 2 0 = .ok (g 0, 1)) ∨
      (g 0 = x ∧ dedupSecond B x 2 0 = .ok (g 1, 2)) := by
  by_cases h0 : g 0 = x
  · right
    refine ⟨h0, ?_⟩
    rw [dedupSecond, hB 0]
    dsimp only
    rw [if_neg (not_not_intro h0), dedupSecond, hB 1]
    dsimp only
    have h01 : g 0 < g 1 := hg (by omega)
    rw [if_pos (by omega)]
  · left
    refine ⟨h0, ?_⟩
    rw [dedupSecond, hB 0]
    dsimp only
    rw [if_pos h0]

theorem fromSets_inv (f g : Nat → Nat) (A B : SetIter)
    (hA : ∀ k, A.yield k = some (f k)) (hB : ∀ k, B.yield k = some (g k))
    (hf : StrictMono f) (hg : StrictMono g) :
    ∃ u, fromSets 2 A B = .ok u ∧ UnionInv f g u := by
  rcases dedupSecond_stream B g hB hg (f 0) with ⟨h0, hd⟩ | ⟨h0, hd⟩
  · rcases mergeStep_cases f g ⟨A, B, 1, 1, f 0, g 0⟩ hA hB hf hg le_rfl le_rfl rfl rfl with
      ⟨hlt, hm⟩ | ⟨heq, hm⟩ | ⟨hgt, hm⟩
    · dsimp only at hlt hm
      refine ⟨⟨⟨A, B, 2, 1, f 1, g 0⟩, f 0⟩, ?_, ?_⟩
      · rw [fromSets, hA 0]
        dsimp only
        rw [hd]
        dsimp only
        rw [hm]
      · refine ⟨hA, hB, hf, hg, by dsimp only; omega, by dsimp only; omega, rfl, rfl, ?_, ?_⟩
        · dsimp only
          exact hf (by omega)
        · dsimp only
          exact hlt
    · dsimp only at heq
      exact absurd heq.symm h0
    · dsimp only at hgt hm
      refine ⟨⟨⟨A, B, 1, 2, f 0, g 1⟩, g 0⟩, ?_, ?_⟩
      · rw [fromSets, hA 0]
        dsimp only
        rw [hd]
        dsimp only
        rw [hm]
      · refine ⟨hA, hB, hf, hg, by dsimp only; omega, by dsimp only; omega, rfl, rfl, ?_, ?_⟩
        · dsimp only
          exact hgt
        · dsimp only
          exact hg (by omega)
  · rcases mergeStep_cases f g ⟨A, B, 1, 2, f 0, g 1⟩ hA hB hf hg le_rfl (by dsimp only; omega) rfl rfl with
      ⟨hlt, hm⟩ | ⟨heq, hm⟩ | ⟨hgt, hm⟩
    · dsimp only at hlt hm
      refine ⟨⟨⟨A, B, 2, 2, f 1, g 1⟩, f 0⟩, ?_, ?_⟩
      · rw [fromSets, hA 0]
        dsimp only
        rw [hd]
        dsimp only
        rw [hm]
      · refine ⟨hA, hB, hf, hg, by dsimp only; omega, by dsimp only; omega, rfl, rfl, ?_, ?_⟩
        · dsimp only
          exact hf (by omega)
        · dsimp only
          exact hlt
    · exfalso
      have h01 : g 0 < g 1 := hg (by omega)
      dsimp only at heq
      omega
    · exfalso
      have h01 : g 0 < g 1 := hg (by omega)
      dsimp only at hgt
      omega

/-- C6: when both operands enumerate strictly increasing streams, the values
emitted by successive `next()` calls on their union are strictly increasing
(hence no two consecutive emitted values are equal). -/
theorem c6_union_strictly_increasing (f g : Nat → Nat) (A B : SetIter)
    (hA : ∀ k, A.yield k = some (f k)) (hB : ∀ k, B.yield k = some (g k))
    (hf : StrictMono f) (hg : StrictMono g) (n : Nat) :
    ∃ l, unionRun 2 n A B = some l ∧ List.Chain' (· < ·) l := by
  obtain ⟨u, hu, hinv⟩ := fromSets_inv f g A B hA hB hf hg
  obtain ⟨l, u', ht, -, hch, -⟩ := unionTake_inv f g n u hinv
  refine ⟨l, ?_, hch⟩
  rw [unionRun, hu]
  dsimp only
  rw [ht]

/-- C6 witness: evens and odds are strictly increasing streams, and the
first three values of their union are the strictly increasing `[1, 2, 3]`. -/
theorem c6_witness :
    unionRun 2 3 evensSet oddsSet = some [1, 2, 3] ∧
      List.Chain' (· < ·) [1, 2, 3] := by
  obtain ⟨l, hl, hch⟩ := c6_union_strictly_increasing
    (fun k => 2 * (k + 1)) (fun k => 2 * k + 1) evensSet oddsSet
    evens_yield odds_yield
    (by intro a b hab; dsimp only; omega) (by intro a b hab; dsimp only; omega) 3
  have h3 : some l = some [1, 2, 3] := by
    rw [← hl]
    exact rfl
  obtain rfl := Option.some.inj h3
  exact ⟨hl, hch⟩

theorem unionNext_mirror (f g : Nat → Nat) (u v : InfiniteUnion)
    (h : UnionInv f g u) (hm : Mirror u v) :
    ∃ u' v', unionNext 2 u = .ok (u.next_value, u') ∧
      unionNext 2 v = .ok (u.next_value, v') ∧ Mirror u' v' := by
  obtain ⟨hA, hB, hf, hg, hi, hj, hfn, hsn, hv1, hv2⟩ := h
  obtain ⟨m1, m2, m3, m4, m5, m6, m7⟩ := hm
  have hvA : ∀ k, v.core.first_set.yield k = some (g k) := by rw [m1]; exact hB
  have hvB : ∀ k, v.core.second_set.yield k = some (f k) := by rw [m2]; exact hA
  have hvi : 1 ≤ v.core.firstIdx := by rw [m3]; exact hj
  have hvj : 1 ≤ v.core.secondIdx := by rw [m4]; exact hi
  have hvfn : v.core.first_next = g (v.core.firstIdx - 1) := by rw [m5, m3]; exact hsn
  have hvsn : v.core.second_next = f (v.core.secondIdx - 1) := by rw [m6, m4]; exact hfn
  rcases mergeStep_cases f g u.core hA hB hf hg hi hj hfn hsn with
    ⟨hult, hmu⟩ | ⟨hueq, hmu⟩ | ⟨hugt, hmu⟩ <;>
    rcases mergeStep_cases g f v.core hvA hvB hg hf hvi hvj hvfn hvsn with
      ⟨hvlt, hmv⟩ | ⟨hveq, hmv⟩ | ⟨hvgt, hmv⟩
  · rw [m5, m6] at hvlt
    omega
  · rw [m5, m6] at hveq
    omega
  · refine ⟨⟨⟨u.core.first_set, u.core.second_set, u.core.firstIdx + 1,
      u.core.secondIdx, f u.core.firstIdx, u.core.second_next⟩, u.core.first_next⟩,
      ⟨⟨v.core.first_set, v.core.second_set, v.core.firstIdx,
      v.core.secondIdx + 1, v.core.first_next, f v.core.secondIdx⟩,
      v.core.second_next⟩, ?_, ?_, ?_⟩
    · rw [unionNext, hmu]
    · rw [unionNext, hmv, m7]
    · exact ⟨m1, m2, m3, by dsimp only; rw [m4], m5,
        by dsimp only; rw [m4], m6⟩
  · rw [m5, m6] at hvlt
    omega
  · refine ⟨⟨⟨u.core.first_set, u.core.second_set, u.core.firstIdx + 1,
      u.core.secondIdx + 1, f u.core.firstIdx, g u.core.secondIdx⟩,
      u.core.second_next⟩,
      ⟨⟨v.core.first_set, v.core.second_set, v.core.firstIdx + 1,
      v.core.secondIdx + 1, g v.core.firstIdx, f v.core.secondIdx⟩,
      v.core.second_next⟩, ?_, ?_, ?_⟩
    · rw [unionNext, hmu]
    · rw [unionNext, hmv, m7]
    · refine ⟨m1, m2, by dsimp only; rw [m3], by dsimp only; rw [m4],
        by dsimp only; rw [m3], by dsimp only; rw [m4], ?_⟩
      dsimp only
      rw [m6, ← hueq]
  · rw [m5, m6] at hvgt
    omega
  · refine ⟨⟨⟨u.core.first_set, u.core.second_set, u.core.firstIdx,
      u.core.secondIdx + 1, u.core.first_next, g u.core.secondIdx⟩,
      u.core.second_next⟩,
      ⟨⟨v.core.first_set, v.core.second_set, v.core.firstIdx + 1,
      v.core.secondIdx, g v.core.firstIdx, v.core.second_next⟩,
      v.core.first_next⟩, ?_, ?_, ?_⟩
    · rw [unionNext, hmu]
    · rw [unionNext, hmv, m7]
    · exact ⟨m1, m2, by dsimp only; rw [m3], m4,
        by dsimp only; rw [m3], m6, m5⟩
  · rw [m5, m6] at hveq
    omega
  · rw [m5, m6] at hvgt
    omega

theorem unionTake_mirror (f g : Nat → Nat) :
    ∀ n u v, UnionInv f g u → Mirror u v →
      ∃ l u' v', unionTake 2 n u = .ok (l, u') ∧ unionTake 2 n v = .ok (l, v') := by
  intro n
  induction n with
  | zero => intro u v _ _; exact ⟨[], u, v, rfl, rfl⟩
  | succ m ih =>
    intro u v h hm
    obtain ⟨u₁, hn, h₁, -⟩ := unionNext_inv f g u h
    obtain ⟨u₁', v₁, hn', hvn, hm₁⟩ := unionNext_mirror f g u v h hm
    rw [hn] at hn'
    simp only [Res.ok.injEq, Prod.mk.injEq] at hn'
    obtain ⟨-, h12⟩ := hn'
    subst h12
    obtain ⟨l, u₂, v₂, htu, htv⟩ := ih u₁ v₁ h₁ hm₁
    refine ⟨u.next_value :: l, u₂, v₂, ?_, ?_⟩
    · rw [unionTake, hn]
      dsimp only
      rw [htu]
    · rw [unionTake, hvn]
      dsimp only
      rw [htv]

theorem fromSets_mirror (f g : Nat → Nat) (A B : SetIter)
    (hA : ∀ k, A.yield k = some (f k)) (hB : ∀ k, B.yield k = some (g k))
    (hf : StrictMono f) (hg : StrictMono g) :
    ∃ u v, fromSets 2 A B = .ok u ∧ fromSets 2 B A = .ok v ∧
      UnionInv f g u ∧ Mirror u v := by
  rcases Nat.lt_trichotomy (f 0) (g 0) with h0 | h0 | h0
  · have hdB : dedupSecond B (f 0) 2 0 = .ok (g 0, 1) := by
      rcases dedupSecond_stream B g hB hg (f 0) with ⟨-, hd⟩ | ⟨he, -⟩
      · exact hd
      · omega
    have hdA : dedupSecond A (g 0) 2 0 = .ok (f 0, 1) := by
      rcases dedupSecond_stream A f hA hf (g 0) with ⟨-, hd⟩ | ⟨he, -⟩
      · exact hd
      · omega
    have hmAB : mergeStep 2 ⟨A, B, 1, 1, f 0, g 0⟩ = .ok (f 0, ⟨A, B, 2, 1, f 1, g 0⟩) := by
      rcases mergeStep_cases f g ⟨A, B, 1, 1, f 0, g 0⟩ hA hB hf hg le_rfl le_rfl rfl rfl with
        ⟨-, hm⟩ | ⟨he, -⟩ | ⟨hgt, -⟩
      · dsimp only at hm
        exact hm
      · dsimp only at he
        omega
      · dsimp only at hgt
        omega
    have hmBA : mergeStep 2 ⟨B, A, 1, 1, g 0, f 0⟩ = .ok (f 0, ⟨B, A, 1, 2, g 0, f 1⟩) := by
      rcases mergeStep_cases g f ⟨B, A, 1, 1, g 0, f 0⟩ hB hA hg hf le_rfl le_rfl rfl rfl with
        ⟨hlt, -⟩ | ⟨he, -⟩ | ⟨-, hm⟩
      · dsimp only at hlt
        omega
      · dsimp only at he
        omega
      · dsimp only at hm
        exact hm
    refine ⟨⟨⟨A, B, 2, 1, f 1, g 0⟩, f 0⟩, ⟨⟨B, A, 1, 2, g 0, f 1⟩, f 0⟩, ?_, ?_, ?_, ?_⟩
    · rw [fromSets, hA 0]
      dsimp only
      rw [hdB]
      dsimp only
      rw [hmAB]
    · rw [fromSets, hB 0]
      dsimp only
      rw [hdA]
      dsimp only
      rw [hmBA]
    · refine ⟨hA, hB, hf, hg, by dsimp only; omega, by dsimp only; omega, rfl, rfl, ?_, ?_⟩
      · dsimp only
        exact hf (by omega)
      · dsimp only
        exact h0
    · exact ⟨rfl, rfl, rfl, rfl, rfl, rfl, rfl⟩
  · have hdB : dedupSecond B (f 0) 2 0 = .ok (g 1, 2) := by
      rcases dedupSecond_stream B g hB hg (f 0) with ⟨hne, -⟩ | ⟨-, hd⟩
      · omega
      · exact hd
    have hdA : dedupSecond A (g 0) 2 0 = .ok (f 1, 2) := by
      rcases dedupSecond_stream A f hA hf (g 0) with ⟨hne, -⟩ | ⟨-, hd⟩
      · omega
      · exact hd
    have hg01 : g 0 < g 1 := hg (by omega)
    have hf01 : f 0 < f 1 := hf (by omega)
    have hmAB : mergeStep 2 ⟨A, B, 1, 2, f 0, g 1⟩ = .ok (f 0, ⟨A, B, 2, 2, f 1, g 1⟩) := by
      rcases mergeStep_cases f g ⟨A, B, 1, 2, f 0, g 1⟩ hA hB hf hg le_rfl
          (by dsimp only; omega) rfl rfl with
        ⟨-, hm⟩ | ⟨he, -⟩ | ⟨hgt, -⟩
      · dsimp only at hm
        exact hm
      · dsimp only at he
        omega
      · dsimp only at hgt
        omega
    have hmBA : mergeStep 2 ⟨B, A, 1, 2, g 0, f 1⟩ = .ok (g 0, ⟨B, A, 2, 2, g 1, f 1⟩) := by
      rcases mergeStep_cases g f ⟨B, A, 1, 2, g 0, f 1⟩ hB hA hg hf le_rfl
          (by dsimp only; omega) rfl rfl with
        ⟨-, hm⟩ | ⟨he, -⟩ | ⟨hgt, -⟩
      · dsimp only at hm
        exact hm
      · dsimp only at he
        omega
      · dsimp only at hgt
        omega
    refine ⟨⟨⟨A, B, 2, 2, f 1, g 1⟩, f 0⟩, ⟨⟨B, A, 2, 2, g 1, f 1⟩, g 0⟩, ?_, ?_, ?_, ?_⟩
    · rw [fromSets, hA 0]
      dsimp only
      rw [hdB]
      dsimp only
      rw [hmAB]
    · rw [fromSets, hB 0]
      dsimp only
      rw [hdA]
      dsimp only
      rw [hmBA]
    · refine ⟨hA, hB, hf, hg, by dsimp only; omega, by dsimp only; omega, rfl, rfl, ?_, ?_⟩
      · dsimp only
        exact hf01
      · dsimp only
        omega
    · refine ⟨rfl, rfl, rfl, rfl, rfl, rfl, ?_⟩
      dsimp only
      omega
  · have hdB : dedupSecond B (f 0) 2 0 = .ok (g 0, 1) := by
      rcases dedupSecond_stream B g hB hg (f 0) with ⟨-, hd⟩ | ⟨he, -⟩
      · exact hd
      · omega
    have hdA : dedupSecond A (g 0) 2 0 = .ok (f 0, 1) := by
      rcases dedupSecond_stream A f hA hf (g 0) with ⟨-, hd⟩ | ⟨he, -⟩
      · exact hd
      · omega
    have hmAB : mergeStep 2 ⟨A, B, 1, 1, f 0, g 0⟩ = .ok (g 0, ⟨A, B, 1, 2, f 0, g 1⟩) := by
      rcases mergeStep_cases f g ⟨A, B, 1, 1, f 0, g 0⟩ hA hB hf hg le_rfl le_rfl rfl rfl with
        ⟨hlt, -⟩ | ⟨he, -⟩ | ⟨-, hm⟩
      · dsimp only at hlt
        omega
      · dsimp only at he
        omega
      · dsimp only at hm
        exact hm
    have hmBA : mergeStep 2 ⟨B, A, 1, 1, g 0, f 0⟩ = .ok (g 0, ⟨B, A, 2, 1, g 1, f 0⟩) := by
      rcases mergeStep_cases g f ⟨B, A, 1, 1, g 0, f 0⟩ hB hA hg hf le_rfl le_rfl rfl rfl with
        ⟨-, hm⟩ | ⟨he, -⟩ | ⟨hgt, -⟩
      · dsimp only at hm
        exact hm
      · dsimp only at he
        omega
      · dsimp only at hgt
        omega
    refine ⟨⟨⟨A, B, 1, 2, f 0, g 1⟩, g 0⟩, ⟨⟨B, A, 2, 1, g 1, f 0⟩, g 0⟩, ?_, ?_, ?_, ?_⟩
    · rw [fromSets, hA 0]
      dsimp only
      rw [hdB]
      dsimp only
      rw [hmAB]
    · rw [fromSets, hB 0]
      dsimp only
      rw [hdA]
      dsimp only
      rw [hmBA]
    · refine ⟨hA, hB, hf, hg, by dsimp only; omega, by dsimp only; omega, rfl, rfl, ?_, ?_⟩
      · dsimp only
        exact h0
      · dsimp only
        exact hg (by omega)
    · exact ⟨rfl, rfl, rfl, rfl, rfl, rfl, rfl⟩

/-- C7: for operands enumerating strictly increasing streams, a freshly
constructed `union(A, B)` and a freshly constructed `union(B, A)` emit
identical value sequences for every number of `next()` calls. -/
theorem c7_union_commutative (f g : Nat → Nat) (A B : SetIter)
    (hA : ∀ k, A.yield k = some (f k)) (hB : ∀ k, B.yield k = some (g k))
    (hf : StrictMono f) (hg : StrictMono g) (n : Nat) :
    unionRun 2 n A B = unionRun 2 n B A ∧ (unionRun 2 n A B).isSome = true := by
  obtain ⟨u, v, hu, hv, hinv, hm⟩ := fromSets_mirror f g A B hA hB hf hg
  obtain ⟨l, u', v', htu, htv⟩ := unionTake_mirror f g n u v hinv hm
  constructor
  · rw [unionRun, unionRun, hu, hv]
    dsimp only
    rw [htu, htv]
  · rw [unionRun, hu]
    dsimp only
    rw [htu]
    rfl

/-- C7 witness: the first two emitted values of evens ∪ odds and odds ∪
evens coincide. -/
theorem c7_witness :
    unionRun 2 2 evensSet oddsSet = unionRun 2 2 oddsSet evensSet ∧
      (unionRun 2 2 evensSet oddsSet).isSome = true :=
  c7_union_commutative (fun k => 2 * (k + 1)) (fun k => 2 * k + 1)
    evensSet oddsSet evens_yield odds_yield
    (by intro a b hab; dsimp only; omega) (by intro a b hab; dsimp only; omega) 2
